import Mathlib

/-!
Verification of the constraint-sampler selection and composition algorithm of
`moveit_core` (`constraint_samplers/src/constraint_sampler_manager.cpp`) and of
`KinematicTrajectory::swap` (`kinematic_trajectory/src/kinematic_trajectory.cpp`),
as a shallow embedding in Lean 4.

The selection algorithm (`ConstraintSamplerManager::selectDefaultSampler`) is a
pure decision procedure over a constraint set, a joint group looked up in the
scene, and the outcomes of external collaborator calls (constraint
configuration, sampler configuration, sampling volumes).  Those collaborators
are not part of the translated source file; they are modelled as oracle
functions bundled in an `Env` record, so a single `Env` plays the role of one
fixed (scene, robot model) pair: every oracle is a deterministic function of
its arguments, exactly as one call of the C++ function observes them.
-/

/-- A position constraint message: its `link_name` plus an opaque identifier
standing for the remaining message fields (target region, tolerances, ...). -/
structure PosC where
  link : String
  id : Nat
deriving DecidableEq, Repr

/-- An orientation constraint message: its `link_name` plus an opaque identifier
standing for the remaining message fields. -/
structure OrntC where
  link : String
  id : Nat
deriving DecidableEq, Repr

/-- A `moveit_msgs::Constraints` message restricted to the fields read by
`selectDefaultSampler`: joint constraints (opaque message identifiers),
position constraints and orientation constraints. -/
structure Constraints where
  joint_constraints : List Nat
  position_constraints : List PosC
  orientation_constraints : List OrntC
deriving DecidableEq, Repr

/-- The goal an `IKConstraintSampler` was configured from: a combined
position+orientation pose, a position-only goal, or an orientation-only goal
(`IKSamplingPose` in the source). -/
inductive IKPose where
  | fullPose (p : PosC) (o : OrntC)
  | posOnly (p : PosC)
  | orntOnly (o : OrntC)
deriving DecidableEq, Repr

/-- A configured sampler, as returned by the selection algorithm: a
`JointConstraintSampler` (group name and the working list of configured joint
constraints, each a message id with its joint variable name), an
`IKConstraintSampler` (group name, constrained link, configured goal, sampling
volume), or a `UnionConstraintSampler` over sub-samplers. -/
inductive Sampler where
  | joint (group : String) (jc : List (Nat × String))
  | ik (group : String) (link : String) (pose : IKPose) (vol : Int)
  | union (group : String) (subs : List Sampler)
deriving Repr

/-- Sampler-construction events, in program order: each `new
JointConstraintSampler`, `new IKConstraintSampler` and `new
UnionConstraintSampler` executed by the algorithm logs one event (an object is
constructed before its `configure` is attempted, so a construction is logged
even when configuration then fails). -/
inductive Ev where
  | joint
  | ik
  | union
deriving DecidableEq, Repr

/-- A subgroup of a joint group that has its own IK allocator: its name and
the links it contains (`hasLinkModel`). -/
structure SubgroupInfo where
  name : String
  links : List String
deriving DecidableEq, Repr

/-- The part of a `robot_model::JointModelGroup` read by the algorithm: the
ordered variable names, whether a direct (whole-group) IK allocator exists
(`getSolverAllocators().first`), and the subgroup IK allocator map
(`getSolverAllocators().second`), as the ordered sequence in which the C++
map is iterated. -/
structure GroupInfo where
  varNames : List String
  ikAlloc : Bool
  subAlloc : List SubgroupInfo
deriving DecidableEq, Repr

/-- Modelled from the spec: the external collaborators of the selection core
for one fixed scene.  `groups` is the kinematic model's group lookup;
`jcConfigure` is `kinematic_constraints::JointConstraint::configure` (on
success it yields `getJointVariableName()`); `pcConfigure`/`ocConfigure` are
`PositionConstraint::configure`/`OrientationConstraint::configure` against the
scene's transforms; `ikConfigPose`/`ikConfigPos`/`ikConfigOrnt` are
`IKConstraintSampler::configure` for the group named in the first argument on
a full-pose / position-only / orientation-only `IKSamplingPose`, yielding
`getSamplingVolume()` on success; `jointSamplerConfigure` is
`JointConstraintSampler::configure` on a working list of joint constraints.
These classes live in this repository but outside the translated source file,
so they are modelled per the spec as deterministic, possibly-failing
configure-then-use collaborators (spec sections 3, 4.3, 6, 7). -/
structure Env where
  groups : String → Option GroupInfo
  jcConfigure : Nat → Option String
  pcConfigure : PosC → Bool
  ocConfigure : OrntC → Bool
  ikConfigPose : String → PosC → OrntC → Option Int
  ikConfigPos : String → PosC → Option Int
  ikConfigOrnt : String → OrntC → Option Int
  jointSamplerConfigure : String → List (Nat × String) → Bool

/-- One entry of the Candidate Table: the goal an IK sampler was configured
from and its sampling volume. -/
structure IKCand where
  pose : IKPose
  vol : Int
deriving DecidableEq, Repr

/-- Strict lexicographic comparison of character lists, used to model the
key order of `std::map<std::string, ...>` (`std::string::operator<`). -/
def charsLt : List Char → List Char → Bool
  | _, [] => false
  | [], _ :: _ => true
  | a :: as, b :: bs => if a < b then true else if b < a then false else charsLt as bs

/-- Strict lexicographic order on strings (the `std::map` key comparator). -/
def strLt (a b : String) : Bool := charsLt a.data b.data

/-- The Candidate Table `usedL`: a `std::map<std::string,
IKConstraintSamplerPtr>` modelled as an association list kept sorted by link
name (in `strLt` order), so list order is exactly the map's iteration order. -/
abbrev CandTable := List (String × IKCand)

/-- `std::map::find`: the value stored under a key, if any. -/
def assocFind : CandTable → String → Option IKCand
  | [], _ => none
  | (k₂, v₂) :: rest, k => if k == k₂ then some v₂ else assocFind rest k

/-- `usedL[key] = value`: insert or overwrite, keeping the list sorted by key
(the iteration order of a `std::map` is ascending key order). -/
def tableInsert : CandTable → String → IKCand → CandTable
  | [], k, v => [(k, v)]
  | (k₂, v₂) :: rest, k, v =>
    if strLt k k₂ then (k, v) :: (k₂, v₂) :: rest
    else if k == k₂ then (k, v) :: rest
    else (k₂, v₂) :: tableInsert rest k v

/-- The recording step at lines 150-159 / 179-188 / 205-214: a freshly
configured candidate for `link` is stored unless the candidate already stored
for that link has a strictly smaller volume. -/
def tableMaybeInsert (t : CandTable) (link : String) (c : IKCand) : CandTable :=
  match assocFind t link with
  | some old => if old.vol < c.vol then t else tableInsert t link c
  | none => tableInsert t link c

/-- Lines 76-87: the working list `jc` of joint constraints that configured
successfully and whose variable is a variable of the group (order preserved). -/
def jointWorkList (env : Env) (jmg : GroupInfo) : List Nat → List (Nat × String)
  | [] => []
  | i :: rest =>
    match env.jcConfigure i with
    | some v =>
      if jmg.varNames.contains v then (i, v) :: jointWorkList env jmg rest
      else jointWorkList env jmg rest
    | none => jointWorkList env jmg rest

/-- Lines 70-95: the Coverage Map check — every group variable is marked by
some entry of the working list. -/
def fullCoverage (env : Env) (jmg : GroupInfo) (jcs : List Nat) : Bool :=
  jmg.varNames.all (fun v => ((jointWorkList env jmg jcs).map Prod.snd).contains v)

/-- Lines 64-118 (Step 2): outcome of the joint-constraint phase — the
retained `joint_sampler` (if any), the construction events, and whether the
function returns immediately (full coverage and successful configuration). -/
def jointPhase (env : Env) (gname : String) (jmg : GroupInfo) (jcs : List Nat) :
    Option Sampler × List Ev × Bool :=
  if jcs.isEmpty then (none, [], false)
  else
    let jc := jointWorkList env jmg jcs
    if fullCoverage env jmg jcs then
      if env.jointSamplerConfigure gname jc then (some (Sampler.joint gname jc), [Ev.joint], true)
      else (none, [Ev.joint], false)
    else if jc.isEmpty then (none, [], false)
    else if env.jointSamplerConfigure gname jc then
      (some (Sampler.joint gname jc), [Ev.joint], false)
    else (none, [Ev.joint], false)

/-- Inner body of the full-pose matching double loop (lines 140-162), for one
(position, orientation) pair. -/
def fpStep (env : Env) (gname : String) (p : PosC) (acc : CandTable × List Ev) (o : OrntC) :
    CandTable × List Ev :=
  if p.link == o.link then
    if env.pcConfigure p && env.ocConfigure o then
      match env.ikConfigPose gname p o with
      | some vol => (tableMaybeInsert acc.1 p.link ⟨IKPose.fullPose p o, vol⟩, acc.2 ++ [Ev.ik])
      | none => (acc.1, acc.2 ++ [Ev.ik])
    else acc
  else acc

/-- Lines 140-162: the full-pose matching pass over all (position,
orientation) constraint pairs. -/
def fullPosePass (env : Env) (gname : String) (constr : Constraints) : CandTable × List Ev :=
  constr.position_constraints.foldl
    (fun acc p => constr.orientation_constraints.foldl (fpStep env gname p) acc)
    ([], [])

/-- Body of the position-only loop (lines 167-191), for one position
constraint; `fullPose` is the snapshot `usedL_fullPose`. -/
def poStep (env : Env) (gname : String) (fullPose : CandTable) (acc : CandTable × List Ev)
    (p : PosC) : CandTable × List Ev :=
  if (assocFind fullPose p.link).isSome then acc
  else if env.pcConfigure p then
    match env.ikConfigPos gname p with
    | some vol => (tableMaybeInsert acc.1 p.link ⟨IKPose.posOnly p, vol⟩, acc.2 ++ [Ev.ik])
    | none => (acc.1, acc.2 ++ [Ev.ik])
  else acc

/-- Body of the orientation-only loop (lines 193-217), for one orientation
constraint. -/
def ooStep (env : Env) (gname : String) (fullPose : CandTable) (acc : CandTable × List Ev)
    (o : OrntC) : CandTable × List Ev :=
  if (assocFind fullPose o.link).isSome then acc
  else if env.ocConfigure o then
    match env.ikConfigOrnt gname o with
    | some vol => (tableMaybeInsert acc.1 o.link ⟨IKPose.orntOnly o, vol⟩, acc.2 ++ [Ev.ik])
    | none => (acc.1, acc.2 ++ [Ev.ik])
  else acc

/-- Lines 134-217: the whole IK-matching pass; returns the final Candidate
Table `usedL` and the IK-sampler construction events. -/
def ikPass (env : Env) (gname : String) (constr : Constraints) : CandTable × List Ev :=
  let fp := fullPosePass env gname constr
  let po := constr.position_constraints.foldl (poStep env gname fp.1) fp
  constr.orientation_constraints.foldl (ooStep env gname fp.1) po

/-- Lines 234-244: the scan for the entry of minimal sampling volume, in table
iteration order, replacing the current best only on a strictly smaller volume. -/
def minEntry (x : String × IKCand) (rest : CandTable) : String × IKCand :=
  rest.foldl (fun best c => if c.2.vol < best.2.vol then c else best) x

/-- The `samplers` vector just after line 122: the joint fallback, if any. -/
def fallbackOf (js : Option Sampler) : List Sampler :=
  match js with
  | some s => [s]
  | none => []

/-- Lines 221-227 / 245-253: wrap the chosen IK sampler with the accumulated
`samplers` vector (the joint fallback) in a Union Sampler, or return it alone. -/
def wrapIK (gname : String) (samplers0 : List Sampler) (iksam : Sampler) : Sampler × List Ev :=
  match samplers0 with
  | [] => (iksam, [])
  | _ :: _ => (Sampler.union gname (samplers0 ++ [iksam]), [Ev.union])

/-- Lines 219-254: resolution of the Candidate Table — exactly one entry is
returned (wrapped as needed); with several entries the minimal-volume scan
picks the one to keep; an empty table falls through (`none`). -/
def ikResolve (gname : String) (samplers0 : List Sampler) (t : CandTable) :
    Option (Sampler × List Ev) :=
  match t with
  | [] => none
  | [e] => some (wrapIK gname samplers0 (Sampler.ik gname e.1 e.2.pose e.2.vol))
  | e :: e₂ :: rest =>
    let m := minEntry e (e₂ :: rest)
    some (wrapIK gname samplers0 (Sampler.ik gname m.1 m.2.pose m.2.vol))

/-- Lines 129-255 (Step 3): the whole-group IK phase; `none` in the first
component means fall-through to the subgroup phase. -/
def ikPhase (env : Env) (gname : String) (constr : Constraints) (jmg : GroupInfo)
    (samplers0 : List Sampler) : Option (Sampler × List Ev) × List Ev :=
  if jmg.ikAlloc then
    let tp := ikPass env gname constr
    (ikResolve gname samplers0 tp.1, tp.2)
  else (none, [])

/-- One (index, constraint) collection loop of the subgroup pass (lines
270-276 and 278-284): walk the enumerated input constraints, and for each one
whose link the subgroup contains and whose input index is not yet claimed,
collect it and claim its index.  `getLink` abstracts the `link_name` field
shared by the two otherwise identical loops. -/
def collectIdx {α : Type} (getLink : α → String) (links : List String) :
    List (Nat × α) → List Nat → List (Nat × α) × List Nat
  | [], used => ([], used)
  | pi :: rest, used =>
    if links.contains (getLink pi.2) && !(used.contains pi.1) then
      let r := collectIdx getLink links rest (pi.1 :: used)
      (pi :: r.1, r.2)
    else collectIdx getLink links rest used

/-- Lines 270-276: position-constraint collection for one subgroup. -/
def collectP (links : List String) (ps : List (Nat × PosC)) (used : List Nat) :
    List (Nat × PosC) × List Nat :=
  collectIdx PosC.link links ps used

/-- Lines 278-284: orientation-constraint collection for one subgroup. -/
def collectO (links : List String) (os : List (Nat × OrntC)) (used : List Nat) :
    List (Nat × OrntC) × List Nat :=
  collectIdx OrntC.link links os used

/-- Loop state of the subgroup pass (lines 263-299): the claimed index sets
`usedP`/`usedO`, the accumulating `samplers` vector, the
`some_sampler_valid` flag, the construction events, and a ghost `trace`
recording each subgroup's sub-constraint assignment (indices kept so that
claims about input positions can be stated). -/
structure SubSt where
  usedP : List Nat
  usedO : List Nat
  samplers : List Sampler
  valid : Bool
  evs : List Ev
  trace : List (SubgroupInfo × (List (Nat × PosC) × List (Nat × OrntC)))

/-- Initial subgroup-pass state: no index claimed, `samplers` holding the
joint fallback (if any). -/
def initSt (samplers0 : List Sampler) : SubSt :=
  ⟨[], [], samplers0, false, [], []⟩

/-- Lines 266-299: the body of the subgroup loop for one subgroup — collect
its sub-constraint-set, and when it is non-empty recursively select a sampler
for the subgroup, accumulating it on success. -/
def subStep (recur : String → Constraints → Option Sampler × List Ev) (constr : Constraints)
    (st : SubSt) (sg : SubgroupInfo) : SubSt :=
  let pc := collectP sg.links constr.position_constraints.enum st.usedP
  let oc := collectO sg.links constr.orientation_constraints.enum st.usedO
  let st₂ : SubSt :=
    { st with usedP := pc.2, usedO := oc.2, trace := st.trace ++ [(sg, (pc.1, oc.1))] }
  if pc.1.isEmpty && oc.1.isEmpty then st₂
  else
    match recur sg.name ⟨[], pc.1.map Prod.snd, oc.1.map Prod.snd⟩ with
    | (some s, cevs) =>
      { st₂ with samplers := st₂.samplers ++ [s], valid := true, evs := st₂.evs ++ cevs }
    | (none, cevs) => { st₂ with evs := st₂.evs ++ cevs }

/-- The subgroup loop over the subgroup allocator sequence. -/
def subgroupRun (recur : String → Constraints → Option Sampler × List Ev) (constr : Constraints) :
    List SubgroupInfo → SubSt → SubSt
  | [], st => st
  | sg :: rest, st => subgroupRun recur constr rest (subStep recur constr st sg)

/-- Lines 120-122 and 256-317 (Steps 3, 4 and 5): everything after the joint
phase, given the retained joint fallback `js` and its events `evs0`. -/
def postJoint (env : Env) (recur : String → Constraints → Option Sampler × List Ev)
    (gname : String) (constr : Constraints) (jmg : GroupInfo) (js : Option Sampler)
    (evs0 : List Ev) : Option Sampler × List Ev :=
  let samplers0 := fallbackOf js
  match ikPhase env gname constr jmg samplers0 with
  | (some r, ikEvs) => (some r.1, evs0 ++ ikEvs ++ r.2)
  | (none, ikEvs) =>
    if jmg.subAlloc.isEmpty then (js, evs0 ++ ikEvs)
    else
      let st := subgroupRun recur constr jmg.subAlloc (initSt samplers0)
      if st.valid then
        (some (Sampler.union gname st.samplers), evs0 ++ ikEvs ++ st.evs ++ [Ev.union])
      else (js, evs0 ++ ikEvs ++ st.evs)

/-- One unfolding of `selectDefaultSampler` (lines 54-317), parameterised by
the function `recur` used for the recursive subgroup calls. -/
def selectBody (env : Env) (recur : String → Constraints → Option Sampler × List Ev)
    (gname : String) (constr : Constraints) : Option Sampler × List Ev :=
  match env.groups gname with
  | none => (none, [])
  | some jmg =>
    match jointPhase env gname jmg constr.joint_constraints with
    | (js, evs0, true) => (js, evs0)
    | (js, evs0, false) => postJoint env recur gname constr jmg js evs0

/-- `ConstraintSamplerManager::selectDefaultSampler`, with a fuel bound on the
recursion depth into subgroups (the C++ recursion is bounded by the finite
acyclic subgroup hierarchy of the robot model; any fuel at least that depth
yields the function's value). -/
def selectDefaultSamplerFuel (env : Env) : Nat → String → Constraints → Option Sampler × List Ev
  | 0 => fun _ _ => (none, [])
  | n + 1 => selectBody env (selectDefaultSamplerFuel env n)

/-- A registered `ConstraintSamplerAllocator`: its `canService` predicate and
its `alloc` factory (which may fail to produce a usable sampler). -/
structure AllocOracle where
  canService : String → Constraints → Bool
  alloc : String → Constraints → Option Sampler

/-- Lines 46-51: the allocator loop of `selectSampler`; the Bool records
whether the default decomposition algorithm was invoked. -/
def selectSamplerLoop (env : Env) (fuel : Nat) (gname : String) (constr : Constraints) :
    List AllocOracle → Option Sampler × Bool
  | [] => ((selectDefaultSamplerFuel env fuel gname constr).1, true)
  | a :: rest =>
    if a.canService gname constr then (a.alloc gname constr, false)
    else selectSamplerLoop env fuel gname constr rest

/-- `ConstraintSamplerManager::selectSampler` (lines 42-52): try the
registered allocators in registration order, else fall back to the default
decomposition algorithm. -/
def selectSampler (env : Env) (allocs : List AllocOracle) (fuel : Nat) (gname : String)
    (constr : Constraints) : Option Sampler × Bool :=
  selectSamplerLoop env fuel gname constr allocs

/-- `kinematic_trajectory::KinematicTrajectory`, restricted to the four data
members touched by `swap`: the kinematic model handle, the group pointer
(group name, if set), the waypoint list (opaque state handles) and the
`duration_from_previous_` list. -/
structure KinematicTrajectory where
  kmodel_ : Nat
  group_ : Option String
  waypoints_ : List Nat
  duration_from_previous_ : List Int
deriving DecidableEq, Repr

/-- `KinematicTrajectory::swap(KinematicTrajectory &other)` (lines 69-75),
translated statement by statement; the result is (this, other) after the
call.  The last source statement is
`duration_from_previous_.swap(duration_from_previous_)`, which swaps this
trajectory's duration list with itself. -/
def KinematicTrajectory.swapWith (a b : KinematicTrajectory) :
    KinematicTrajectory × KinematicTrajectory :=
  let a₁ := { a with kmodel_ := b.kmodel_ }
  let b₁ := { b with kmodel_ := a.kmodel_ }
  let a₂ := { a₁ with group_ := b₁.group_ }
  let b₂ := { b₁ with group_ := a₁.group_ }
  let a₃ := { a₂ with waypoints_ := b₂.waypoints_ }
  let b₃ := { b₂ with waypoints_ := a₂.waypoints_ }
  let a₄ := { a₃ with duration_from_previous_ := a₃.duration_from_previous_ }
  (a₄, b₃)

/-- The pure partition view of the subgroup pass: the sub-constraint
assignment each subgroup receives (with input indices), threading the claimed
index sets exactly as lines 265-284 do.  This threading does not depend on
the outcomes of the recursive selection calls. -/
def subAssignAux (constr : Constraints) :
    List SubgroupInfo → List Nat → List Nat →
    List (SubgroupInfo × (List (Nat × PosC) × List (Nat × OrntC)))
  | [], _, _ => []
  | sg :: rest, usedP, usedO =>
    let pc := collectP sg.links constr.position_constraints.enum usedP
    let oc := collectO sg.links constr.orientation_constraints.enum usedO
    (sg, (pc.1, oc.1)) :: subAssignAux constr rest pc.2 oc.2

/-- The samplers produced by the successful recursive subgroup calls, in
subgroup order (the elements appended to `samplers` at line 296). -/
def subSuccesses (recur : String → Constraints → Option Sampler × List Ev) (constr : Constraints) :
    List SubgroupInfo → List Nat → List Nat → List Sampler
  | [], _, _ => []
  | sg :: rest, usedP, usedO =>
    let pc := collectP sg.links constr.position_constraints.enum usedP
    let oc := collectO sg.links constr.orientation_constraints.enum usedO
    let tail := subSuccesses recur constr rest pc.2 oc.2
    if pc.1.isEmpty && oc.1.isEmpty then tail
    else
      match (recur sg.name ⟨[], pc.1.map Prod.snd, oc.1.map Prod.snd⟩).1 with
      | some s => s :: tail
      | none => tail

/-- Two subgroup assignments claim disjoint position indices and disjoint
orientation indices. -/
def assignDisjoint (a b : SubgroupInfo × (List (Nat × PosC) × List (Nat × OrntC))) : Prop :=
  (∀ pr ∈ a.2.1, ∀ qr ∈ b.2.1, pr.1 ≠ qr.1) ∧ (∀ pr ∈ a.2.2, ∀ qr ∈ b.2.2, pr.1 ≠ qr.1)

/-- A group with one variable, a whole-group IK allocator and no subgroups. -/
def jmgA : GroupInfo := ⟨["v"], true, []⟩

/-- A group with two variables, a whole-group IK allocator and no subgroups. -/
def jmgB : GroupInfo := ⟨["v", "w"], true, []⟩

/-- A scene in which group `g` is `jmgA`, joint constraint `0` configures to
variable `v`, all Cartesian constraints configure (full pose volume 4,
position-only 5, orientation-only 6), and `JointConstraintSampler`
configuration fails. -/
def envA : Env :=
  ⟨fun s => if s == "g" then some jmgA else none,
   fun i => if i == 0 then some "v" else none,
   fun _ => true, fun _ => true,
   fun _ _ _ => some 4, fun _ _ => some 5, fun _ _ => some 6,
   fun _ _ => false⟩

/-- Like `envA` but `JointConstraintSampler` configuration succeeds. -/
def envC : Env :=
  ⟨fun s => if s == "g" then some jmgA else none,
   fun i => if i == 0 then some "v" else none,
   fun _ => true, fun _ => true,
   fun _ _ _ => some 4, fun _ _ => some 5, fun _ _ => some 6,
   fun _ _ => true⟩

/-- A scene with group `g` = `jmgB`: joint constraint `0` covers only `v`
(partial coverage), position-only IK volumes depend on the link (3 for `b`,
7 otherwise), and joint-sampler configuration succeeds. -/
def envB : Env :=
  ⟨fun s => if s == "g" then some jmgB else none,
   fun i => if i == 0 then some "v" else none,
   fun _ => true, fun _ => true,
   fun _ _ _ => some 4,
   fun _ p => some (if p.link == "b" then 3 else 7),
   fun _ _ => some 6,
   fun _ _ => true⟩

/-- Parent group with no variables, no direct IK allocator, and two
IK-capable subgroups `s1` (link `l1`) and `s2` (link `l2`). -/
def jmgS : GroupInfo := ⟨[], false, [⟨"s1", ["l1"]⟩, ⟨"s2", ["l2"]⟩]⟩

/-- The subgroup `s1` of `jmgS`. -/
def jmgS1 : GroupInfo := ⟨["a"], true, []⟩

/-- The subgroup `s2` of `jmgS`. -/
def jmgS2 : GroupInfo := ⟨["b"], true, []⟩

/-- A scene exercising the subgroup pass: `g` is `jmgS`, its subgroups
resolve to `jmgS1`/`jmgS2`, no joint constraint configures, every Cartesian
constraint configures, position-only IK volume 2. -/
def envS : Env :=
  ⟨fun s =>
     if s == "g" then some jmgS
     else if s == "s1" then some jmgS1
     else if s == "s2" then some jmgS2
     else none,
   fun _ => none,
   fun _ => true, fun _ => true,
   fun _ _ _ => some 4, fun _ _ => some 2, fun _ _ => some 6,
   fun _ _ => false⟩

/-- Joint constraint 0 plus a position constraint on link `l`. -/
def cA1 : Constraints := ⟨[0], [⟨"l", 0⟩], []⟩

/-- Position constraints on links `b` then `a` (in that input order). -/
def cBA : Constraints := ⟨[], [⟨"b", 0⟩, ⟨"a", 1⟩], []⟩

/-- One position and two orientation constraints, all on link `l`. -/
def cPO : Constraints := ⟨[], [⟨"l", 0⟩], [⟨"l", 0⟩, ⟨"l", 1⟩]⟩

/-- Joint constraint 0 plus position constraints on links `b` then `a`. -/
def cW2 : Constraints := ⟨[0], [⟨"b", 0⟩, ⟨"a", 1⟩], []⟩

/-- Position constraints on the two subgroup links of `jmgS`. -/
def cS : Constraints := ⟨[], [⟨"l1", 0⟩, ⟨"l2", 1⟩], []⟩

/-- A registered allocator that services nothing. -/
def allocNo : AllocOracle := ⟨fun _ _ => false, fun _ _ => none⟩

/-- A registered allocator that claims every request but produces no usable
sampler. -/
def allocYesNone : AllocOracle := ⟨fun _ _ => true, fun _ _ => none⟩

/-- A group with two variables, no IK allocator and no subgroups. -/
def jmgF : GroupInfo := ⟨["v", "w"], false, []⟩

/-- A scene with group `g` = `jmgF`: joint constraint `0` covers `v` only and
joint-sampler configuration succeeds, so selection retains a joint fallback
and has no IK or subgroup strategy to try. -/
def envF : Env :=
  ⟨fun s => if s == "g" then some jmgF else none,
   fun i => if i == 0 then some "v" else none,
   fun _ => true, fun _ => true,
   fun _ _ _ => some 4, fun _ _ => some 5, fun _ _ => some 6,
   fun _ _ => true⟩

/-- Like `envC` but joint constraint `1` also configures, to variable `z`,
which is not a variable of group `g`. -/
def envG : Env :=
  ⟨fun s => if s == "g" then some jmgA else none,
   fun i => if i == 0 then some "v" else if i == 1 then some "z" else none,
   fun _ => true, fun _ => true,
   fun _ _ _ => some 4, fun _ _ => some 5, fun _ _ => some 6,
   fun _ _ => true⟩

/-- The Candidate Table invariant: entries are strictly sorted by link name,
i.e. the list order is the `std::map` iteration order. -/
def tableSorted (t : CandTable) : Prop :=
  List.Pairwise (fun x y => strLt x.1 y.1 = true) t

theorem charsLt_trans : ∀ (a b c : List Char),
    charsLt a b = true → charsLt b c = true → charsLt a c = true := by
  intro a
  induction a with
  | nil =>
    intro b c h₁ h₂
    cases c with
    | nil =>
      cases b <;> simp [charsLt] at h₂
    | cons c₀ cs => simp [charsLt]
  | cons a₀ as ih =>
    intro b c h₁ h₂
    cases b with
    | nil => simp [charsLt] at h₁
    | cons b₀ bs =>
      cases c with
      | nil => simp [charsLt] at h₂
      | cons c₀ cs =>
        simp only [charsLt] at h₁ h₂ ⊢
        by_cases hab : a₀ < b₀
        · by_cases hbc : b₀ < c₀
          · simp [lt_trans hab hbc]
          · simp only [hbc, if_false] at h₂
            by_cases hcb : c₀ < b₀
            · simp [hcb] at h₂
            · have hbc₂ : b₀ = c₀ := le_antisymm (le_of_not_lt hcb) (le_of_not_lt hbc)
              simp [hbc₂ ▸ hab]
        · simp only [hab, if_false] at h₁
          by_cases hba : b₀ < a₀
          · simp [hba] at h₁
          · simp only [hba, if_false] at h₁
            have hab₂ : a₀ = b₀ := le_antisymm (le_of_not_lt hba) (le_of_not_lt hab)
            subst hab₂
            by_cases hac : a₀ < c₀
            · simp [hac]
            · simp only [hac, if_false] at h₂ ⊢
              by_cases hca : c₀ < a₀
              · simp [hca] at h₂
              · simp only [hca, if_false] at h₂ ⊢
                exact ih bs cs h₁ h₂

theorem charsLt_asymm_total : ∀ (a b : List Char),
    charsLt a b = false → charsLt b a = false → a = b := by
  intro a
  induction a with
  | nil =>
    intro b h₁ h₂
    cases b with
    | nil => rfl
    | cons b₀ bs => simp [charsLt] at h₁
  | cons a₀ as ih =>
    intro b h₁ h₂
    cases b with
    | nil => simp [charsLt] at h₂
    | cons b₀ bs =>
      simp only [charsLt] at h₁ h₂
      by_cases hab : a₀ < b₀
      · simp [hab] at h₁
      · by_cases hba : b₀ < a₀
        · simp [hab, hba] at h₂
        · have he : a₀ = b₀ := le_antisymm (le_of_not_lt hba) (le_of_not_lt hab)
          simp only [hab, hba, if_false] at h₁ h₂
          rw [he, ih bs h₁ h₂]

theorem strLt_trans {a b c : String} (h₁ : strLt a b = true) (h₂ : strLt b c = true) :
    strLt a c = true :=
  charsLt_trans a.data b.data c.data h₁ h₂

theorem strLt_total {a b : String} (h₁ : strLt a b = false) (h₂ : (a == b) = false) :
    strLt b a = true := by
  cases h₃ : strLt b a with
  | true => rfl
  | false =>
    have hd : a.data = b.data := charsLt_asymm_total a.data b.data h₁ h₃
    have he : a = b := by
      cases a
      cases b
      exact congrArg String.mk hd
    rw [he] at h₂
    simp at h₂

theorem assocFind_tableInsert_self (t : CandTable) (k : String) (v : IKCand) :
    assocFind (tableInsert t k v) k = some v := by
  induction t with
  | nil => simp [tableInsert, assocFind]
  | cons hd rest ih =>
    obtain ⟨k₂, v₂⟩ := hd
    simp only [tableInsert]
    by_cases h₁ : strLt k k₂ = true
    · rw [if_pos h₁]
      simp [assocFind]
    · rw [if_neg h₁]
      by_cases h₂ : (k == k₂) = true
      · rw [if_pos h₂]
        simp [assocFind]
      · rw [if_neg h₂]
        simp only [assocFind]
        rw [if_neg h₂]
        exact ih

theorem tableInsert_mem (t : CandTable) (k : String) (v : IKCand) :
    ∀ x ∈ tableInsert t k v, x = (k, v) ∨ x ∈ t := by
  induction t with
  | nil => simp [tableInsert]
  | cons hd rest ih =>
    obtain ⟨k₂, v₂⟩ := hd
    intro x hx
    simp only [tableInsert] at hx
    by_cases h₁ : strLt k k₂ = true
    · rw [if_pos h₁] at hx
      simp only [List.mem_cons] at hx
      simp only [List.mem_cons]
      tauto
    · rw [if_neg h₁] at hx
      by_cases h₂ : (k == k₂) = true
      · rw [if_pos h₂] at hx
        simp only [List.mem_cons] at hx
        simp only [List.mem_cons]
        tauto
      · rw [if_neg h₂] at hx
        simp only [List.mem_cons] at hx
        simp only [List.mem_cons]
        rcases hx with h₃ | h₃
        · tauto
        · rcases ih x h₃ with h₄ | h₄ <;> tauto

theorem tableInsert_sorted (t : CandTable) (k : String) (v : IKCand) (h : tableSorted t) :
    tableSorted (tableInsert t k v) := by
  induction t with
  | nil => simp [tableInsert, tableSorted]
  | cons hd rest ih =>
    obtain ⟨k₂, v₂⟩ := hd
    rw [tableSorted, List.pairwise_cons] at h
    obtain ⟨hhead, hrest⟩ := h
    simp only [tableInsert]
    by_cases h₁ : strLt k k₂ = true
    · rw [if_pos h₁, tableSorted, List.pairwise_cons]
      constructor
      · intro y hy
        rcases List.mem_cons.mp hy with h₂ | h₂
        · exact h₂ ▸ h₁
        · exact strLt_trans h₁ (hhead y h₂)
      · rw [List.pairwise_cons]
        exact ⟨hhead, hrest⟩
    · rw [if_neg h₁]
      by_cases h₂ : (k == k₂) = true
      · rw [if_pos h₂, tableSorted, List.pairwise_cons]
        have he : k = k₂ := by simpa using h₂
        exact ⟨fun y hy => he ▸ hhead y hy, hrest⟩
      · rw [if_neg h₂, tableSorted, List.pairwise_cons]
        constructor
        · intro y hy
          rcases tableInsert_mem rest k v y hy with h₃ | h₃
          · rw [h₃]
            exact strLt_total (Bool.not_eq_true _ ▸ h₁) (Bool.not_eq_true _ ▸ h₂)
          · exact hhead y h₃
        · exact ih hrest

theorem tableMaybeInsert_sorted (t : CandTable) (link : String) (c : IKCand)
    (h : tableSorted t) : tableSorted (tableMaybeInsert t link c) := by
  rw [tableMaybeInsert]
  cases assocFind t link with
  | none => exact tableInsert_sorted t link c h
  | some old =>
    by_cases h₂ : old.vol < c.vol
    · simpa [h₂] using h
    · simpa [h₂] using tableInsert_sorted t link c h

theorem foldl_preserve {α β : Type} (P : α → Prop) (f : α → β → α)
    (h : ∀ a b, P a → P (f a b)) : ∀ (l : List β) (a : α), P a → P (l.foldl f a) := by
  intro l
  induction l with
  | nil => intro a ha; exact ha
  | cons x xs ih => intro a ha; exact ih (f a x) (h a x ha)

theorem fpStep_sorted (env : Env) (gname : String) (p : PosC) (acc : CandTable × List Ev)
    (o : OrntC) (h : tableSorted acc.1) : tableSorted (fpStep env gname p acc o).1 := by
  rw [fpStep]
  by_cases h₁ : (p.link == o.link) = true
  · rw [if_pos h₁]
    by_cases h₂ : (env.pcConfigure p && env.ocConfigure o) = true
    · rw [if_pos h₂]
      cases env.ikConfigPose gname p o with
      | none => exact h
      | some vol => exact tableMaybeInsert_sorted acc.1 p.link ⟨IKPose.fullPose p o, vol⟩ h
    · rw [if_neg h₂]
      exact h
  · rw [if_neg h₁]
    exact h

theorem poStep_sorted (env : Env) (gname : String) (fp : CandTable) (acc : CandTable × List Ev)
    (p : PosC) (h : tableSorted acc.1) : tableSorted (poStep env gname fp acc p).1 := by
  rw [poStep]
  by_cases h₁ : (assocFind fp p.link).isSome = true
  · rw [if_pos h₁]
    exact h
  · rw [if_neg h₁]
    by_cases h₂ : env.pcConfigure p = true
    · rw [if_pos h₂]
      cases env.ikConfigPos gname p with
      | none => exact h
      | some vol => exact tableMaybeInsert_sorted acc.1 p.link ⟨IKPose.posOnly p, vol⟩ h
    · rw [if_neg h₂]
      exact h

theorem ooStep_sorted (env : Env) (gname : String) (fp : CandTable) (acc : CandTable × List Ev)
    (o : OrntC) (h : tableSorted acc.1) : tableSorted (ooStep env gname fp acc o).1 := by
  rw [ooStep]
  by_cases h₁ : (assocFind fp o.link).isSome = true
  · rw [if_pos h₁]
    exact h
  · rw [if_neg h₁]
    by_cases h₂ : env.ocConfigure o = true
    · rw [if_pos h₂]
      cases env.ikConfigOrnt gname o with
      | none => exact h
      | some vol => exact tableMaybeInsert_sorted acc.1 o.link ⟨IKPose.orntOnly o, vol⟩ h
    · rw [if_neg h₂]
      exact h

theorem ikPass_sorted (env : Env) (gname : String) (constr : Constraints) :
    tableSorted (ikPass env gname constr).1 := by
  rw [ikPass]
  have hfp : tableSorted (fullPosePass env gname constr).1 := by
    rw [fullPosePass]
    refine foldl_preserve (fun (acc : CandTable × List Ev) => tableSorted acc.1) _ ?_ _ _ ?_
    · intro acc p hacc
      exact foldl_preserve (fun (acc : CandTable × List Ev) => tableSorted acc.1)
        (fpStep env gname p) (fun a b ha => fpStep_sorted env gname p a b ha) _ acc hacc
    · simp [tableSorted]
  have hpo : tableSorted
      (constr.position_constraints.foldl (poStep env gname (fullPosePass env gname constr).1)
        (fullPosePass env gname constr)).1 :=
    foldl_preserve (fun (acc : CandTable × List Ev) => tableSorted acc.1) _
      (fun a b ha => poStep_sorted env gname (fullPosePass env gname constr).1 a b ha) _ _ hfp
  exact foldl_preserve (fun (acc : CandTable × List Ev) => tableSorted acc.1) _
    (fun a b ha => ooStep_sorted env gname (fullPosePass env gname constr).1 a b ha) _ _ hpo

theorem minEntry_le (x : String × IKCand) (rest : CandTable) :
    ∀ y ∈ x :: rest, (minEntry x rest).2.vol ≤ y.2.vol := by
  induction rest generalizing x with
  | nil =>
    intro y hy
    rcases List.mem_cons.mp hy with h | h
    · rw [h]
      exact le_refl _
    · cases h
  | cons c cs ih =>
    intro y hy
    have hstep : minEntry x (c :: cs) = minEntry (if c.2.vol < x.2.vol then c else x) cs := by
      rw [minEntry, minEntry, List.foldl_cons]
    have hx₂ : (minEntry (if c.2.vol < x.2.vol then c else x) cs).2.vol ≤
        (if c.2.vol < x.2.vol then c else x).2.vol :=
      ih _ _ (List.mem_cons_self _ _)
    rcases List.mem_cons.mp hy with h | h
    · rw [h, hstep]
      by_cases hc : c.2.vol < x.2.vol
      · rw [if_pos hc] at hx₂ ⊢
        exact le_trans hx₂ (le_of_lt hc)
      · rw [if_neg hc] at hx₂ ⊢
        exact hx₂
    · rcases List.mem_cons.mp h with h₂ | h₂
      · rw [h₂, hstep]
        by_cases hc : c.2.vol < x.2.vol
        · rw [if_pos hc] at hx₂ ⊢
          exact hx₂
        · rw [if_neg hc] at hx₂ ⊢
          exact le_trans hx₂ (le_of_not_lt hc)
      · rw [hstep]
        exact ih _ y (List.mem_cons_of_mem _ h₂)

theorem minEntry_first (x : String × IKCand) (rest : CandTable) :
    ∃ l₁ l₂, x :: rest = l₁ ++ minEntry x rest :: l₂ ∧
      ∀ y ∈ l₁, (minEntry x rest).2.vol < y.2.vol := by
  induction rest generalizing x with
  | nil =>
    refine ⟨[], [], ?_, ?_⟩
    · rw [minEntry, List.foldl_nil]
      rfl
    · intro y hy
      cases hy
  | cons c cs ih =>
    have hstep : minEntry x (c :: cs) = minEntry (if c.2.vol < x.2.vol then c else x) cs := by
      rw [minEntry, minEntry, List.foldl_cons]
    by_cases hc : c.2.vol < x.2.vol
    · obtain ⟨l₁, l₂, hdec, hstrict⟩ := ih c
      have hmc : minEntry x (c :: cs) = minEntry c cs := by
        rw [hstep, if_pos hc]
      refine ⟨x :: l₁, l₂, ?_, ?_⟩
      · rw [hmc, List.cons_append, ← hdec]
      · intro y hy
        rcases List.mem_cons.mp hy with h | h
        · rw [h, hmc]
          exact lt_of_le_of_lt (minEntry_le c cs c (List.mem_cons_self _ _)) hc
        · rw [hmc]
          exact hstrict y h
    · obtain ⟨l₁, l₂, hdec, hstrict⟩ := ih x
      have hmc : minEntry x (c :: cs) = minEntry x cs := by
        rw [hstep, if_neg hc]
      cases l₁ with
      | nil =>
        simp only [List.nil_append] at hdec
        obtain ⟨hx, hcs⟩ := List.cons_eq_cons.mp hdec
        refine ⟨[], c :: cs, ?_, ?_⟩
        · rw [hmc, List.nil_append, ← hx]
        · intro y hy
          cases hy
      | cons z l₁ =>
        simp only [List.cons_append, List.cons_eq_cons] at hdec
        obtain ⟨hzx, hcs⟩ := hdec
        refine ⟨x :: c :: l₁, l₂, ?_, ?_⟩
        · rw [hmc, List.cons_append, List.cons_append, ← hcs]
        · intro y hy
          have hxl : minEntry x cs ∈ l₁ → (minEntry x cs).2.vol < x.2.vol := by
            intro _
            exact hstrict x (hzx ▸ List.mem_cons_self z l₁)
          have hminx : (minEntry x cs).2.vol < x.2.vol :=
            hstrict x (hzx ▸ List.mem_cons_self z l₁)
          rcases List.mem_cons.mp hy with h | h
          · rw [h, hmc]
            exact hminx
          · rcases List.mem_cons.mp h with h₂ | h₂
            · rw [h₂, hmc]
              exact lt_of_lt_of_le hminx (le_of_not_lt hc)
            · rw [hmc]
              exact hstrict y (List.mem_cons_of_mem _ h₂)

theorem minEntry_mem (x : String × IKCand) (rest : CandTable) :
    minEntry x rest ∈ x :: rest := by
  obtain ⟨l₁, l₂, hdec, _⟩ := minEntry_first x rest
  rw [hdec]
  exact List.mem_append_right l₁ (List.mem_cons_self _ _)

theorem collectIdx_mono {α : Type} (getLink : α → String) (links : List String) :
    ∀ (l : List (Nat × α)) (used : List Nat) (n : Nat),
      used.contains n = true → (collectIdx getLink links l used).2.contains n = true := by
  intro l
  induction l with
  | nil => intro used n h; exact h
  | cons pi rest ih =>
    intro used n h
    rw [collectIdx]
    by_cases hc : (links.contains (getLink pi.2) && !(used.contains pi.1)) = true
    · rw [if_pos hc]
      exact ih (pi.1 :: used) n (by rw [List.contains_cons, h, Bool.or_true])
    · rw [if_neg hc]
      exact ih used n h

theorem collectIdx_collected {α : Type} (getLink : α → String) (links : List String) :
    ∀ (l : List (Nat × α)) (used : List Nat) (pr : Nat × α),
      pr ∈ (collectIdx getLink links l used).1 →
      used.contains pr.1 = false ∧ links.contains (getLink pr.2) = true ∧
        (collectIdx getLink links l used).2.contains pr.1 = true ∧ pr ∈ l := by
  intro l
  induction l with
  | nil =>
    intro used pr h
    simp [collectIdx] at h
  | cons pi rest ih =>
    intro used pr h
    rw [collectIdx] at h ⊢
    by_cases hc : (links.contains (getLink pi.2) && !(used.contains pi.1)) = true
    · rw [if_pos hc] at h ⊢
      rcases List.mem_cons.mp h with h₂ | h₂
      · obtain ⟨hl, hu⟩ := Bool.and_eq_true_iff.mp hc
        have hu₂ : used.contains pi.1 = false := by simpa using hu
        rw [h₂]
        refine ⟨hu₂, hl, ?_, List.mem_cons_self _ _⟩
        exact collectIdx_mono getLink links rest (pi.1 :: used) pi.1
          (by rw [List.contains_cons]; simp)
      · obtain ⟨hu, hl, ho, hm⟩ := ih (pi.1 :: used) pr h₂
        rw [List.contains_cons] at hu
        refine ⟨?_, hl, ho, List.mem_cons_of_mem _ hm⟩
        exact (Bool.or_eq_false_iff.mp hu).2
    · rw [if_neg hc] at h ⊢
      obtain ⟨hu, hl, ho, hm⟩ := ih used pr h
      exact ⟨hu, hl, ho, List.mem_cons_of_mem _ hm⟩

theorem subAssign_excludesP (constr : Constraints) :
    ∀ (subs : List SubgroupInfo) (usedP usedO : List Nat) (n : Nat),
      usedP.contains n = true →
      ∀ e ∈ subAssignAux constr subs usedP usedO, ∀ pr ∈ e.2.1, pr.1 ≠ n := by
  intro subs
  induction subs with
  | nil =>
    intro usedP usedO n hn e he
    simp [subAssignAux] at he
  | cons sg rest ih =>
    intro usedP usedO n hn e he
    simp only [subAssignAux] at he
    rcases List.mem_cons.mp he with h | h
    · intro pr hpr
      rw [h] at hpr
      have hc := collectIdx_collected PosC.link sg.links constr.position_constraints.enum
        usedP pr hpr
      intro hne
      rw [hne, hn] at hc
      exact Bool.true_eq_false ▸ (hc.1 ▸ rfl)
    · intro pr hpr
      exact ih _ _ n
        (collectIdx_mono PosC.link sg.links constr.position_constraints.enum usedP n hn)
        e h pr hpr

theorem subAssign_excludesO (constr : Constraints) :
    ∀ (subs : List SubgroupInfo) (usedP usedO : List Nat) (n : Nat),
      usedO.contains n = true →
      ∀ e ∈ subAssignAux constr subs usedP usedO, ∀ pr ∈ e.2.2, pr.1 ≠ n := by
  intro subs
  induction subs with
  | nil =>
    intro usedP usedO n hn e he
    simp [subAssignAux] at he
  | cons sg rest ih =>
    intro usedP usedO n hn e he
    simp only [subAssignAux] at he
    rcases List.mem_cons.mp he with h | h
    · intro pr hpr
      rw [h] at hpr
      have hc := collectIdx_collected OrntC.link sg.links constr.orientation_constraints.enum
        usedO pr hpr
      intro hne
      rw [hne, hn] at hc
      exact Bool.true_eq_false ▸ (hc.1 ▸ rfl)
    · intro pr hpr
      exact ih _ _ n
        (collectIdx_mono OrntC.link sg.links constr.orientation_constraints.enum usedO n hn)
        e h pr hpr

theorem subAssign_pairwise (constr : Constraints) :
    ∀ (subs : List SubgroupInfo) (usedP usedO : List Nat),
      List.Pairwise assignDisjoint (subAssignAux constr subs usedP usedO) := by
  intro subs
  induction subs with
  | nil =>
    intro usedP usedO
    simp [subAssignAux]
  | cons sg rest ih =>
    intro usedP usedO
    simp only [subAssignAux]
    rw [List.pairwise_cons]
    constructor
    · intro b hb
      constructor
      · intro pr hpr qr hqr
        have hc := collectIdx_collected PosC.link sg.links constr.position_constraints.enum
          usedP pr hpr
        exact fun h =>
          subAssign_excludesP constr rest _ _ pr.1 hc.2.2.1 b hb qr hqr (h ▸ rfl)
      · intro pr hpr qr hqr
        have hc := collectIdx_collected OrntC.link sg.links constr.orientation_constraints.enum
          usedO pr hpr
        exact fun h =>
          subAssign_excludesO constr rest _ _ pr.1 hc.2.2.1 b hb qr hqr (h ▸ rfl)
    · exact ih _ _

theorem subAssign_links (constr : Constraints) :
    ∀ (subs : List SubgroupInfo) (usedP usedO : List Nat) (e : _),
      e ∈ subAssignAux constr subs usedP usedO →
      (∀ pr ∈ e.2.1, e.1.links.contains pr.2.link = true) ∧
        (∀ pr ∈ e.2.2, e.1.links.contains pr.2.link = true) := by
  intro subs
  induction subs with
  | nil =>
    intro usedP usedO e he
    simp [subAssignAux] at he
  | cons sg rest ih =>
    intro usedP usedO e he
    simp only [subAssignAux] at he
    rcases List.mem_cons.mp he with h | h
    · constructor
      · intro pr hpr
        rw [h] at hpr ⊢
        exact (collectIdx_collected PosC.link sg.links constr.position_constraints.enum
          usedP pr hpr).2.1
      · intro pr hpr
        rw [h] at hpr ⊢
        exact (collectIdx_collected OrntC.link sg.links constr.orientation_constraints.enum
          usedO pr hpr).2.1
    · exact ih _ _ e h

theorem subStep_fields (recur : String → Constraints → Option Sampler × List Ev)
    (constr : Constraints) (st : SubSt) (sg : SubgroupInfo) :
    (subStep recur constr st sg).usedP =
        (collectP sg.links constr.position_constraints.enum st.usedP).2 ∧
      (subStep recur constr st sg).usedO =
        (collectO sg.links constr.orientation_constraints.enum st.usedO).2 ∧
      (subStep recur constr st sg).trace =
        st.trace ++ [(sg, ((collectP sg.links constr.position_constraints.enum st.usedP).1,
          (collectO sg.links constr.orientation_constraints.enum st.usedO).1))] := by
  simp only [subStep]
  split
  · exact ⟨rfl, rfl, rfl⟩
  · split
    · exact ⟨rfl, rfl, rfl⟩
    · exact ⟨rfl, rfl, rfl⟩

theorem subgroupRun_trace (recur : String → Constraints → Option Sampler × List Ev)
    (constr : Constraints) :
    ∀ (subs : List SubgroupInfo) (st : SubSt),
      (subgroupRun recur constr subs st).trace =
        st.trace ++ subAssignAux constr subs st.usedP st.usedO := by
  intro subs
  induction subs with
  | nil =>
    intro st
    simp [subgroupRun, subAssignAux]
  | cons sg rest ih =>
    intro st
    rw [subgroupRun, ih]
    obtain ⟨h₁, h₂, h₃⟩ := subStep_fields recur constr st sg
    rw [h₁, h₂, h₃]
    simp only [subAssignAux]
    rw [List.append_assoc]
    rfl

theorem subStep_samplers (recur : String → Constraints → Option Sampler × List Ev)
    (constr : Constraints) (st : SubSt) (sg : SubgroupInfo) :
    (subStep recur constr st sg).samplers = st.samplers ++
      (if ((collectP sg.links constr.position_constraints.enum st.usedP).1.isEmpty &&
            (collectO sg.links constr.orientation_constraints.enum st.usedO).1.isEmpty) = true
       then []
       else
         match (recur sg.name
            ⟨[], (collectP sg.links constr.position_constraints.enum st.usedP).1.map Prod.snd,
              (collectO sg.links constr.orientation_constraints.enum st.usedO).1.map
                Prod.snd⟩).1 with
         | some s => [s]
         | none => []) := by
  simp only [subStep]
  split
  · simp
  · cases hr : recur sg.name
        ⟨[], (collectP sg.links constr.position_constraints.enum st.usedP).1.map Prod.snd,
          (collectO sg.links constr.orientation_constraints.enum st.usedO).1.map Prod.snd⟩ with
    | mk cs cevs =>
      cases cs with
      | some s => simp [hr]
      | none => simp [hr]

theorem subgroupRun_samplers (recur : String → Constraints → Option Sampler × List Ev)
    (constr : Constraints) :
    ∀ (subs : List SubgroupInfo) (st : SubSt),
      (subgroupRun recur constr subs st).samplers =
        st.samplers ++ subSuccesses recur constr subs st.usedP st.usedO := by
  intro subs
  induction subs with
  | nil =>
    intro st
    simp [subgroupRun, subSuccesses]
  | cons sg rest ih =>
    intro st
    rw [subgroupRun, ih]
    obtain ⟨h₁, h₂, _⟩ := subStep_fields recur constr st sg
    rw [h₁, h₂, subStep_samplers recur constr st sg]
    simp only [subSuccesses]
    split
    · simp
    · cases hr : (recur sg.name
          ⟨[], (collectP sg.links constr.position_constraints.enum st.usedP).1.map Prod.snd,
            (collectO sg.links constr.orientation_constraints.enum st.usedO).1.map
              Prod.snd⟩).1 with
      | some s => simp [hr, List.append_assoc]
      | none => simp [hr]

theorem sdsf_succ (env : Env) (n : Nat) (gname : String) (constr : Constraints) :
    selectDefaultSamplerFuel env (n + 1) gname constr =
      selectBody env (selectDefaultSamplerFuel env n) gname constr := rfl

theorem selectBody_return (env : Env) (recur : String → Constraints → Option Sampler × List Ev)
    (gname : String) (constr : Constraints) (jmg : GroupInfo) (js : Option Sampler)
    (evs0 : List Ev) (hg : env.groups gname = some jmg)
    (hjp : jointPhase env gname jmg constr.joint_constraints = (js, evs0, true)) :
    selectBody env recur gname constr = (js, evs0) := by
  simp only [selectBody, hg, hjp]

theorem selectBody_post (env : Env) (recur : String → Constraints → Option Sampler × List Ev)
    (gname : String) (constr : Constraints) (jmg : GroupInfo) (js : Option Sampler)
    (evs0 : List Ev) (hg : env.groups gname = some jmg)
    (hjp : jointPhase env gname jmg constr.joint_constraints = (js, evs0, false)) :
    selectBody env recur gname constr = postJoint env recur gname constr jmg js evs0 := by
  simp only [selectBody, hg, hjp]

theorem ikPass_congr (env : Env) (gname : String) (c₁ c₂ : Constraints)
    (hp : c₁.position_constraints = c₂.position_constraints)
    (ho : c₁.orientation_constraints = c₂.orientation_constraints) :
    ikPass env gname c₁ = ikPass env gname c₂ := by
  simp only [ikPass, fullPosePass, hp, ho]

theorem subStep_congr (recur : String → Constraints → Option Sampler × List Ev)
    (c₁ c₂ : Constraints)
    (hp : c₁.position_constraints = c₂.position_constraints)
    (ho : c₁.orientation_constraints = c₂.orientation_constraints)
    (st : SubSt) (sg : SubgroupInfo) :
    subStep recur c₁ st sg = subStep recur c₂ st sg := by
  simp only [subStep, hp, ho]

theorem subgroupRun_congr (recur : String → Constraints → Option Sampler × List Ev)
    (c₁ c₂ : Constraints)
    (hp : c₁.position_constraints = c₂.position_constraints)
    (ho : c₁.orientation_constraints = c₂.orientation_constraints) :
    ∀ (subs : List SubgroupInfo) (st : SubSt),
      subgroupRun recur c₁ subs st = subgroupRun recur c₂ subs st := by
  intro subs
  induction subs with
  | nil => intro st; rfl
  | cons sg rest ih =>
    intro st
    rw [subgroupRun, subgroupRun, subStep_congr recur c₁ c₂ hp ho st sg, ih]

theorem postJoint_congr (env : Env) (recur : String → Constraints → Option Sampler × List Ev)
    (gname : String) (jmg : GroupInfo) (js : Option Sampler) (evs0 : List Ev)
    (c₁ c₂ : Constraints)
    (hp : c₁.position_constraints = c₂.position_constraints)
    (ho : c₁.orientation_constraints = c₂.orientation_constraints) :
    postJoint env recur gname c₁ jmg js evs0 = postJoint env recur gname c₂ jmg js evs0 := by
  simp only [postJoint, ikPhase, ikPass_congr env gname c₁ c₂ hp ho,
    subgroupRun_congr recur c₁ c₂ hp ho]

theorem isEmpty_append_cons {α : Type} (l₁ l₂ : List α) (a : α) :
    (l₁ ++ a :: l₂).isEmpty = false := by
  cases l₁ <;> rfl

theorem jointWorkList_skip (env : Env) (jmg : GroupInfo) (i : Nat) (v : String)
    (hconf : env.jcConfigure i = some v) (hv : jmg.varNames.contains v = false) :
    ∀ (jcs₁ jcs₂ : List Nat),
      jointWorkList env jmg (jcs₁ ++ i :: jcs₂) = jointWorkList env jmg (jcs₁ ++ jcs₂) := by
  intro jcs₁
  induction jcs₁ with
  | nil =>
    intro jcs₂
    simp only [List.nil_append, jointWorkList, hconf]
    rw [if_neg (by rw [hv]; exact Bool.false_ne_true)]
  | cons j rest ih =>
    intro jcs₂
    simp only [List.cons_append, jointWorkList]
    cases env.jcConfigure j with
    | none => exact ih jcs₂
    | some w =>
      dsimp only
      by_cases hw : jmg.varNames.contains w = true
      · rw [if_pos hw, if_pos hw]
        exact congrArg _ (ih jcs₂)
      · rw [if_neg hw, if_neg hw]
        exact ih jcs₂

theorem fullCoverage_skip (env : Env) (jmg : GroupInfo) (i : Nat) (v : String)
    (hconf : env.jcConfigure i = some v) (hv : jmg.varNames.contains v = false)
    (jcs₁ jcs₂ : List Nat) :
    fullCoverage env jmg (jcs₁ ++ i :: jcs₂) = fullCoverage env jmg (jcs₁ ++ jcs₂) := by
  rw [fullCoverage, fullCoverage, jointWorkList_skip env jmg i v hconf hv jcs₁ jcs₂]

theorem jointPhase_skip (env : Env) (gname : String) (jmg : GroupInfo) (i : Nat) (v : String)
    (hconf : env.jcConfigure i = some v) (hv : jmg.varNames.contains v = false)
    (jcs₁ jcs₂ : List Nat) (hne : (jcs₁ ++ jcs₂).isEmpty = false) :
    jointPhase env gname jmg (jcs₁ ++ i :: jcs₂) = jointPhase env gname jmg (jcs₁ ++ jcs₂) := by
  simp only [jointPhase, isEmpty_append_cons, hne,
    jointWorkList_skip env jmg i v hconf hv jcs₁ jcs₂,
    fullCoverage_skip env jmg i v hconf hv jcs₁ jcs₂]

/-- C10: `KinematicTrajectory::swap` exchanges the kinematic model handle, the
group pointer and the waypoint list between the two trajectories, but leaves
both trajectories' `duration_from_previous_` lists unchanged — the final
statement of the member function swaps the duration list with itself, not
with the other trajectory's. -/
theorem C10_swap_keeps_durations (a b : KinematicTrajectory) :
    KinematicTrajectory.swapWith a b =
      (⟨b.kmodel_, b.group_, b.waypoints_, a.duration_from_previous_⟩,
        ⟨a.kmodel_, a.group_, a.waypoints_, b.duration_from_previous_⟩) := rfl

/-- C5: `selectSampler` tries registered allocators in registration order; the
first allocator whose `canService` answers true has its `alloc` result
returned with the default algorithm not invoked (second component `false`),
even when `alloc` yields no usable sampler; and only when every registered
allocator declines is `selectDefaultSampler` invoked (second component
`true`). -/
theorem C5_selectSampler_first_match (env : Env) (fuel : Nat) (gname : String)
    (constr : Constraints) :
    (∀ (pre : List AllocOracle) (a : AllocOracle) (post : List AllocOracle),
        (∀ b ∈ pre, b.canService gname constr = false) →
        a.canService gname constr = true →
        selectSampler env (pre ++ a :: post) fuel gname constr = (a.alloc gname constr, false)) ∧
      ∀ allocs : List AllocOracle,
        (∀ b ∈ allocs, b.canService gname constr = false) →
        selectSampler env allocs fuel gname constr =
          ((selectDefaultSamplerFuel env fuel gname constr).1, true) := by
  constructor
  · intro pre
    induction pre with
    | nil =>
      intro a post _ ha
      rw [selectSampler, List.nil_append, selectSamplerLoop, if_pos ha]
    | cons x xs ih =>
      intro a post hpre ha
      have hx : x.canService gname constr = false := hpre x (List.mem_cons_self _ _)
      rw [selectSampler, List.cons_append, selectSamplerLoop,
        if_neg (by rw [hx]; exact Bool.false_ne_true)]
      exact ih a post (fun b hb => hpre b (List.mem_cons_of_mem _ hb)) ha
  · intro allocs
    induction allocs with
    | nil => intro _; rfl
    | cons x xs ih =>
      intro hall
      have hx : x.canService gname constr = false := hall x (List.mem_cons_self _ _)
      rw [selectSampler, selectSamplerLoop, if_neg (by rw [hx]; exact Bool.false_ne_true)]
      exact ih fun b hb => hall b (List.mem_cons_of_mem _ hb)

/-- C4: in the subgroup pass, the per-subgroup sub-constraint assignments are
pairwise disjoint on input indices (no position or orientation constraint is
claimed by two subgroups), and every assigned constraint's link belongs to
the subgroup that received it — for any recursion oracle and joint fallback. -/
theorem C4_subgroup_partition (recur : String → Constraints → Option Sampler × List Ev)
    (constr : Constraints) (subs : List SubgroupInfo) (samplers0 : List Sampler) :
    List.Pairwise assignDisjoint (subgroupRun recur constr subs (initSt samplers0)).trace ∧
      ∀ e ∈ (subgroupRun recur constr subs (initSt samplers0)).trace,
        (∀ pr ∈ e.2.1, e.1.links.contains pr.2.link = true) ∧
          ∀ pr ∈ e.2.2, e.1.links.contains pr.2.link = true := by
  have ht : (subgroupRun recur constr subs (initSt samplers0)).trace =
      subAssignAux constr subs [] [] := by
    rw [subgroupRun_trace]
    rfl
  rw [ht]
  exact ⟨subAssign_pairwise constr subs [] [],
    fun e he => subAssign_links constr subs [] [] e he⟩

/-- C8: a constraint index matched to a subgroup is claimed at the moment it
is placed into the sub-constraint-set, before the recursive call: the
assignment trace equals the recursion-independent `subAssignAux` threading,
coincides for any two recursion oracles (in particular one that always fails),
and no claimed index reappears in a later subgroup's assignment. -/
theorem C8_claimed_at_placement (constr : Constraints) (subs : List SubgroupInfo)
    (samplers0 : List Sampler)
    (recur recur₂ : String → Constraints → Option Sampler × List Ev) :
    (subgroupRun recur constr subs (initSt samplers0)).trace =
        subAssignAux constr subs [] [] ∧
      (subgroupRun recur constr subs (initSt samplers0)).trace =
        (subgroupRun recur₂ constr subs (initSt samplers0)).trace ∧
      List.Pairwise assignDisjoint (subgroupRun recur constr subs (initSt samplers0)).trace := by
  have ht : (subgroupRun recur constr subs (initSt samplers0)).trace =
      subAssignAux constr subs [] [] := by
    rw [subgroupRun_trace]
    rfl
  have ht₂ : (subgroupRun recur₂ constr subs (initSt samplers0)).trace =
      subAssignAux constr subs [] [] := by
    rw [subgroupRun_trace]
    rfl
  refine ⟨ht, ht.trans ht₂.symm, ?_⟩
  rw [ht]
  exact subAssign_pairwise constr subs [] []

/-- C1 counterexample: in scene `envA`, the joint constraints of `cA1` fully
cover group `g` (its sole variable `v`), yet `selectDefaultSampler` does not
return a Joint Sampler: the fully-covering Joint Sampler fails to configure,
the algorithm proceeds to the IK pass, constructs an IK sampler (event list
`[Ev.joint, Ev.ik]`) and returns it. -/
theorem C1_counterexample :
    envA.groups "g" = some jmgA ∧
      fullCoverage envA jmgA cA1.joint_constraints = true ∧
      selectDefaultSamplerFuel envA 1 "g" cA1 =
        (some (Sampler.ik "g" "l" (IKPose.posOnly ⟨"l", 0⟩) 5), [Ev.joint, Ev.ik]) :=
  ⟨rfl, rfl, rfl⟩

/-- C1 (amended): when the joint constraints cover every variable of the
group and the Joint Sampler built from the working list configures
successfully, `selectDefaultSampler` returns that Joint Sampler immediately;
the event list `[Ev.joint]` shows no IK sampler and no Union sampler is
constructed, regardless of position or orientation constraints present. -/
theorem C1_full_coverage_returns_joint (env : Env) (fuel : Nat) (gname : String)
    (constr : Constraints) (jmg : GroupInfo)
    (hg : env.groups gname = some jmg)
    (hne : constr.joint_constraints.isEmpty = false)
    (hfc : fullCoverage env jmg constr.joint_constraints = true)
    (hcfg : env.jointSamplerConfigure gname
      (jointWorkList env jmg constr.joint_constraints) = true) :
    selectDefaultSamplerFuel env (fuel + 1) gname constr =
      (some (Sampler.joint gname (jointWorkList env jmg constr.joint_constraints)),
        [Ev.joint]) := by
  rw [sdsf_succ]
  refine selectBody_return env _ gname constr jmg _ _ hg ?_
  simp [jointPhase, hne, hfc, hcfg]

/-- C1 witness: concrete run of the amended claim in `envC`. -/
theorem C1_witness :
    selectDefaultSamplerFuel envC 1 "g" cA1 =
      (some (Sampler.joint "g" [(0, "v")]), [Ev.joint]) := by
  have h := C1_full_coverage_returns_joint envC 0 "g" cA1 jmgA rfl rfl rfl rfl
  exact h

/-- When the group has no direct IK allocator, or the Candidate Table ends
empty, the whole-group IK phase yields no sampler and falls through. -/
theorem ikPhase_none (env : Env) (gname : String) (constr : Constraints) (jmg : GroupInfo)
    (samplers0 : List Sampler)
    (hik : jmg.ikAlloc = false ∨ (ikPass env gname constr).1 = []) :
    (ikPhase env gname constr jmg samplers0).1 = none := by
  rcases hik with h | h
  · simp [ikPhase, h]
  · by_cases ha : jmg.ikAlloc = true
    · simp [ikPhase, ha, h, ikResolve]
    · simp [ikPhase, ha]

/-- C7: when full joint coverage did not return a sampler, the whole-group IK
pass yields no candidate, and the subgroup pass yields no sampler, the
algorithm returns the joint fallback candidate when one exists and the empty
result otherwise (the first component of the joint-phase outcome), as an
ordinary return value. -/
theorem C7_exhaustion_returns_fallback (env : Env) (fuel : Nat) (gname : String)
    (constr : Constraints) (jmg : GroupInfo) (js : Option Sampler) (evs0 : List Ev)
    (hg : env.groups gname = some jmg)
    (hjp : jointPhase env gname jmg constr.joint_constraints = (js, evs0, false))
    (hik : jmg.ikAlloc = false ∨ (ikPass env gname constr).1 = [])
    (hsub : jmg.subAlloc.isEmpty = true ∨
      (subgroupRun (selectDefaultSamplerFuel env fuel) constr jmg.subAlloc
        (initSt (fallbackOf js))).valid = false) :
    (selectDefaultSamplerFuel env (fuel + 1) gname constr).1 = js := by
  rw [sdsf_succ, selectBody_post env _ gname constr jmg js evs0 hg hjp]
  have hikp := ikPhase_none env gname constr jmg (fallbackOf js) hik
  cases hip : ikPhase env gname constr jmg (fallbackOf js) with
  | mk o ikEvs =>
    rw [hip] at hikp
    simp only at hikp
    subst hikp
    simp only [postJoint, hip]
    by_cases hse : jmg.subAlloc.isEmpty = true
    · rw [if_pos hse]
    · rw [if_neg hse]
      have hval : (subgroupRun (selectDefaultSamplerFuel env fuel) constr jmg.subAlloc
          (initSt (fallbackOf js))).valid = false := by
        rcases hsub with h | h
        · exact absurd h hse
        · exact h
      rw [if_neg (by rw [hval]; exact Bool.false_ne_true)]

/-- C7 witness: a group with a partially-covering joint constraint, no IK
allocator and no subgroups returns the joint fallback alone. -/
theorem C7_witness :
    (selectDefaultSamplerFuel envF 1 "g" ⟨[0], [], []⟩).1 =
      some (Sampler.joint "g" [(0, "v")]) := by
  have h := C7_exhaustion_returns_fallback envF 0 "g" ⟨[0], [], []⟩ jmgF
    (some (Sampler.joint "g" [(0, "v")])) [Ev.joint] rfl rfl (Or.inl rfl) (Or.inl rfl)
  exact h

/-- C6: when the whole-group IK phase falls through and at least one subgroup
produced a sampler, the result is a Union Sampler over the joint fallback
(first, when present) followed by the successful subgroup samplers in
subgroup-allocator order. -/
theorem C6_union_order (env : Env) (fuel : Nat) (gname : String) (constr : Constraints)
    (jmg : GroupInfo) (js : Option Sampler) (evs0 : List Ev)
    (hg : env.groups gname = some jmg)
    (hjp : jointPhase env gname jmg constr.joint_constraints = (js, evs0, false))
    (hik : jmg.ikAlloc = false ∨ (ikPass env gname constr).1 = [])
    (hse : jmg.subAlloc.isEmpty = false)
    (hvalid : (subgroupRun (selectDefaultSamplerFuel env fuel) constr jmg.subAlloc
      (initSt (fallbackOf js))).valid = true) :
    (selectDefaultSamplerFuel env (fuel + 1) gname constr).1 =
      some (Sampler.union gname (fallbackOf js ++
        subSuccesses (selectDefaultSamplerFuel env fuel) constr jmg.subAlloc [] [])) := by
  rw [sdsf_succ, selectBody_post env _ gname constr jmg js evs0 hg hjp]
  have hikp := ikPhase_none env gname constr jmg (fallbackOf js) hik
  cases hip : ikPhase env gname constr jmg (fallbackOf js) with
  | mk o ikEvs =>
    rw [hip] at hikp
    simp only at hikp
    subst hikp
    simp only [postJoint, hip]
    rw [if_neg (by rw [hse]; exact Bool.false_ne_true), if_pos hvalid]
    simp only
    have hs := subgroupRun_samplers (selectDefaultSamplerFuel env fuel) constr jmg.subAlloc
      (initSt (fallbackOf js))
    rw [show (initSt (fallbackOf js)).samplers = fallbackOf js from rfl,
      show (initSt (fallbackOf js)).usedP = [] from rfl,
      show (initSt (fallbackOf js)).usedO = [] from rfl] at hs
    rw [hs]

/-- C6 witness: two IK-capable subgroups each receiving one position
constraint yield a Union Sampler over the two subgroup samplers in subgroup
order. -/
theorem C6_witness :
    (selectDefaultSamplerFuel envS 2 "g" cS).1 =
      some (Sampler.union "g" [Sampler.ik "s1" "l1" (IKPose.posOnly ⟨"l1", 0⟩) 2,
        Sampler.ik "s2" "l2" (IKPose.posOnly ⟨"l2", 1⟩) 2]) := by
  have h := C6_union_order envS 1 "g" cS jmgS none [] rfl rfl (Or.inl rfl) rfl rfl
  exact h

/-- C2 counterexample: in `envA` with `cBA`, the candidate for link `b` is
built and inserted first and the candidate for link `a` second, both with
sampling volume 5; the kept candidate is the one for link `a` (first in the
table's link-name iteration order), not the first-inserted candidate of
minimal volume (link `b`), refuting the first-inserted tie-break. -/
theorem C2_counterexample :
    cBA.position_constraints = [⟨"b", 0⟩, ⟨"a", 1⟩] ∧
      ikPass envA "g" cBA =
        ([("a", ⟨IKPose.posOnly ⟨"a", 1⟩, 5⟩), ("b", ⟨IKPose.posOnly ⟨"b", 0⟩, 5⟩)],
          [Ev.ik, Ev.ik]) ∧
      (selectDefaultSamplerFuel envA 1 "g" cBA).1 =
        some (Sampler.ik "g" "a" (IKPose.posOnly ⟨"a", 1⟩) 5) :=
  ⟨rfl, rfl, rfl⟩

/-- C2 (amended): with more than one candidate in the table, the algorithm
keeps the entry of globally minimal sampling volume, ties resolved by table
iteration order — the table is sorted strictly ascending by link name, so the
lexicographically first link among the minimal-volume candidates wins; the
kept candidate is returned alone without a joint fallback, or wrapped after
the fallback in a Union Sampler otherwise; all other candidates are
discarded. -/
theorem C2_min_volume (env : Env) (fuel : Nat) (gname : String) (constr : Constraints)
    (jmg : GroupInfo) (js : Option Sampler) (evs0 : List Ev) (e e₂ : String × IKCand)
    (rest : CandTable) (ikEvs : List Ev)
    (hg : env.groups gname = some jmg)
    (hjp : jointPhase env gname jmg constr.joint_constraints = (js, evs0, false))
    (hik : jmg.ikAlloc = true)
    (htab : ikPass env gname constr = (e :: e₂ :: rest, ikEvs)) :
    minEntry e (e₂ :: rest) ∈ e :: e₂ :: rest ∧
      (∀ y ∈ e :: e₂ :: rest, (minEntry e (e₂ :: rest)).2.vol ≤ y.2.vol) ∧
      (∃ l₁ l₂, e :: e₂ :: rest = l₁ ++ minEntry e (e₂ :: rest) :: l₂ ∧
        ∀ y ∈ l₁, (minEntry e (e₂ :: rest)).2.vol < y.2.vol) ∧
      tableSorted (e :: e₂ :: rest) ∧
      selectDefaultSamplerFuel env (fuel + 1) gname constr =
        (match js with
         | none =>
           (some (Sampler.ik gname (minEntry e (e₂ :: rest)).1
             (minEntry e (e₂ :: rest)).2.pose (minEntry e (e₂ :: rest)).2.vol), evs0 ++ ikEvs)
         | some s =>
           (some (Sampler.union gname [s, Sampler.ik gname (minEntry e (e₂ :: rest)).1
             (minEntry e (e₂ :: rest)).2.pose (minEntry e (e₂ :: rest)).2.vol]),
             evs0 ++ ikEvs ++ [Ev.union])) := by
  refine ⟨minEntry_mem e (e₂ :: rest), minEntry_le e (e₂ :: rest),
    minEntry_first e (e₂ :: rest), ?_, ?_⟩
  · have hsort := ikPass_sorted env gname constr
    rw [htab] at hsort
    exact hsort
  · rw [sdsf_succ, selectBody_post env _ gname constr jmg js evs0 hg hjp]
    simp only [postJoint, ikPhase, hik, if_true, htab, ikResolve]
    cases js with
    | none => simp [wrapIK, fallbackOf]
    | some s => simp [wrapIK, fallbackOf]

/-- C2 witness: two position-only candidates with volumes 7 (link `a`) and 3
(link `b`) plus a partial joint fallback produce a Union Sampler of the
fallback and the minimal-volume candidate. -/
theorem C2_witness :
    (selectDefaultSamplerFuel envB 1 "g" cW2).1 =
      some (Sampler.union "g" [Sampler.joint "g" [(0, "v")],
        Sampler.ik "g" "b" (IKPose.posOnly ⟨"b", 0⟩) 3]) := by
  have h := C2_min_volume envB 0 "g" cW2 jmgB (some (Sampler.joint "g" [(0, "v")])) [Ev.joint]
    ("a", ⟨IKPose.posOnly ⟨"a", 1⟩, 7⟩) ("b", ⟨IKPose.posOnly ⟨"b", 0⟩, 3⟩) [] [Ev.ik, Ev.ik]
    rfl rfl rfl rfl
  exact congrArg Prod.fst h.2.2.2.2

/-- C3 counterexample: in `envA` with `cPO`, link `l` first receives the
full-pose candidate built from orientation constraint 0 (volume 4); the
candidate from orientation constraint 1 configures with the same volume 4
and REPLACES it — the table ends holding the later-seen candidate, refuting
the rule that ties keep the first-seen candidate. -/
theorem C3_counterexample :
    cPO.orientation_constraints = [⟨"l", 0⟩, ⟨"l", 1⟩] ∧
      envA.ikConfigPose "g" ⟨"l", 0⟩ ⟨"l", 0⟩ = some 4 ∧
      envA.ikConfigPose "g" ⟨"l", 0⟩ ⟨"l", 1⟩ = some 4 ∧
      ikPass envA "g" cPO =
        ([("l", ⟨IKPose.fullPose ⟨"l", 0⟩ ⟨"l", 1⟩, 4⟩)], [Ev.ik, Ev.ik]) ∧
      (selectDefaultSamplerFuel envA 1 "g" cPO).1 =
        some (Sampler.ik "g" "l" (IKPose.fullPose ⟨"l", 0⟩ ⟨"l", 1⟩) 4) :=
  ⟨rfl, rfl, rfl, rfl, rfl⟩

/-- C3 (amended): in each of the three IK-matching steps, a newly configured
candidate for a link that already has a stored candidate replaces the stored
one exactly when its volume is less than or equal to the stored volume (the
stored candidate survives only when its volume is strictly smaller); when
the volumes are equal the last-seen candidate is kept. -/
theorem C3_replace_on_le (env : Env) (gname : String) :
    (∀ (p : PosC) (o : OrntC) (acc : CandTable × List Ev) (old : IKCand) (vol : Int),
        p.link = o.link → env.pcConfigure p = true → env.ocConfigure o = true →
        env.ikConfigPose gname p o = some vol →
        assocFind acc.1 p.link = some old →
        assocFind (fpStep env gname p acc o).1 p.link =
          some (if old.vol < vol then old else ⟨IKPose.fullPose p o, vol⟩)) ∧
      (∀ (fp : CandTable) (p : PosC) (acc : CandTable × List Ev) (old : IKCand) (vol : Int),
        (assocFind fp p.link).isSome = false → env.pcConfigure p = true →
        env.ikConfigPos gname p = some vol →
        assocFind acc.1 p.link = some old →
        assocFind (poStep env gname fp acc p).1 p.link =
          some (if old.vol < vol then old else ⟨IKPose.posOnly p, vol⟩)) ∧
      ∀ (fp : CandTable) (o : OrntC) (acc : CandTable × List Ev) (old : IKCand) (vol : Int),
        (assocFind fp o.link).isSome = false → env.ocConfigure o = true →
        env.ikConfigOrnt gname o = some vol →
        assocFind acc.1 o.link = some old →
        assocFind (ooStep env gname fp acc o).1 o.link =
          some (if old.vol < vol then old else ⟨IKPose.orntOnly o, vol⟩) := by
  refine ⟨?_, ?_, ?_⟩
  · intro p o acc old vol hpo hpc hoc hcfg hold
    rw [fpStep, if_pos (show (p.link == o.link) = true by rw [hpo]; simp),
      if_pos (by rw [hpc, hoc]; rfl), hcfg]
    simp only [tableMaybeInsert, hold]
    by_cases hv : old.vol < vol
    · rw [if_pos hv, if_pos hv, hold]
    · rw [if_neg hv, if_neg hv]
      exact assocFind_tableInsert_self acc.1 p.link ⟨IKPose.fullPose p o, vol⟩
  · intro fp p acc old vol hfp hpc hcfg hold
    rw [poStep, if_neg (by rw [hfp]; exact Bool.false_ne_true), if_pos hpc, hcfg]
    simp only [tableMaybeInsert, hold]
    by_cases hv : old.vol < vol
    · rw [if_pos hv, if_pos hv, hold]
    · rw [if_neg hv, if_neg hv]
      exact assocFind_tableInsert_self acc.1 p.link ⟨IKPose.posOnly p, vol⟩
  · intro fp o acc old vol hfp hoc hcfg hold
    rw [ooStep, if_neg (by rw [hfp]; exact Bool.false_ne_true), if_pos hoc, hcfg]
    simp only [tableMaybeInsert, hold]
    by_cases hv : old.vol < vol
    · rw [if_pos hv, if_pos hv, hold]
    · rw [if_neg hv, if_neg hv]
      exact assocFind_tableInsert_self acc.1 o.link ⟨IKPose.orntOnly o, vol⟩

/-- C9: a joint constraint that configures successfully but whose variable is
not a variable of the requested group is silently excluded — the working
list, the coverage check and the entire selection outcome are the same as if
the constraint were absent (given that some other joint constraint remains,
so the joint branch is entered in both runs). -/
theorem C9_foreign_variable_ignored (env : Env) (fuel : Nat) (gname : String)
    (jmg : GroupInfo) (i : Nat) (v : String) (jcs₁ jcs₂ : List Nat) (ps : List PosC)
    (os : List OrntC)
    (hg : env.groups gname = some jmg)
    (hconf : env.jcConfigure i = some v)
    (hv : jmg.varNames.contains v = false)
    (hne : (jcs₁ ++ jcs₂).isEmpty = false) :
    jointWorkList env jmg (jcs₁ ++ i :: jcs₂) = jointWorkList env jmg (jcs₁ ++ jcs₂) ∧
      fullCoverage env jmg (jcs₁ ++ i :: jcs₂) = fullCoverage env jmg (jcs₁ ++ jcs₂) ∧
      selectDefaultSamplerFuel env fuel gname ⟨jcs₁ ++ i :: jcs₂, ps, os⟩ =
        selectDefaultSamplerFuel env fuel gname ⟨jcs₁ ++ jcs₂, ps, os⟩ := by
  refine ⟨jointWorkList_skip env jmg i v hconf hv jcs₁ jcs₂,
    fullCoverage_skip env jmg i v hconf hv jcs₁ jcs₂, ?_⟩
  cases fuel with
  | zero => rfl
  | succ n =>
    rw [sdsf_succ, sdsf_succ]
    have hskip := jointPhase_skip env gname jmg i v hconf hv jcs₁ jcs₂ hne
    cases hjp : jointPhase env gname jmg (jcs₁ ++ jcs₂) with
    | mk js rest₂ =>
      obtain ⟨evs0, ret⟩ := rest₂
      cases ret with
      | true =>
        rw [selectBody_return env _ gname _ jmg js evs0 hg (hskip.trans hjp),
          selectBody_return env _ gname _ jmg js evs0 hg hjp]
      | false =>
        rw [selectBody_post env _ gname _ jmg js evs0 hg (hskip.trans hjp),
          selectBody_post env _ gname _ jmg js evs0 hg hjp]
        exact postJoint_congr env _ gname jmg js evs0 _ _ rfl rfl

/-- C9 witness: adding joint constraint 1 (variable `z`, not in group `g`, as
`envG` configures it) to `[0]` changes nothing. -/
theorem C9_witness :
    jointWorkList envG jmgA ([0] ++ 1 :: []) = jointWorkList envG jmgA ([0] ++ []) ∧
      selectDefaultSamplerFuel envG 1 "g" ⟨[0] ++ 1 :: [], [], []⟩ =
        selectDefaultSamplerFuel envG 1 "g" ⟨[0] ++ [], [], []⟩ := by
  have h := C9_foreign_variable_ignored envG 1 "g" jmgA 1 "z" [0] [] [] [] rfl rfl rfl rfl
  exact ⟨h.1, h.2.2⟩

/-- C3 witness: a stored candidate of volume 4 for link `l` is replaced by a
new full-pose candidate of equal volume 4. -/
theorem C3_witness :
    assocFind (fpStep envA "g" ⟨"l", 0⟩
        ([("l", ⟨IKPose.posOnly ⟨"l", 9⟩, 4⟩)], []) ⟨"l", 0⟩).1 "l" =
      some ⟨IKPose.fullPose ⟨"l", 0⟩ ⟨"l", 0⟩, 4⟩ := by
  have h := (C3_replace_on_le envA "g").1 ⟨"l", 0⟩ ⟨"l", 0⟩
    ([("l", ⟨IKPose.posOnly ⟨"l", 9⟩, 4⟩)], []) ⟨IKPose.posOnly ⟨"l", 9⟩, 4⟩ 4
    rfl rfl rfl rfl rfl
  exact h.trans (by rfl)

/-- C4 witness: the concrete two-subgroup scene yields pairwise-disjoint
assignments. -/
theorem C4_witness :
    List.Pairwise assignDisjoint
      (subgroupRun (fun _ _ => (none, [])) cS jmgS.subAlloc (initSt [])).trace :=
  (C4_subgroup_partition (fun _ _ => (none, [])) cS jmgS.subAlloc []).1

/-- C5 witness: with a declining allocator followed by one that claims the
request but allocates nothing, `selectSampler` returns the empty allocation
and never invokes the default algorithm. -/
theorem C5_witness :
    selectSampler envA [allocNo, allocYesNone] 1 "g" cA1 = (none, false) := by
  have hpre : ∀ b ∈ [allocNo], b.canService "g" cA1 = false := by
    intro b hb
    rw [List.mem_singleton] at hb
    rw [hb]
    rfl
  have h := (C5_selectSampler_first_match envA 1 "g" cA1).1 [allocNo] allocYesNone []
    hpre rfl
  exact h

/-- C8 witness: the assignment trace of the concrete two-subgroup scene is
the same whether the recursion succeeds or always fails. -/
theorem C8_witness :
    (subgroupRun (selectDefaultSamplerFuel envS 1) cS jmgS.subAlloc (initSt [])).trace =
      (subgroupRun (fun _ _ => (none, [])) cS jmgS.subAlloc (initSt [])).trace :=
  (C8_claimed_at_placement cS jmgS.subAlloc [] (selectDefaultSamplerFuel envS 1)
    (fun _ _ => (none, []))).2.1
